import Mathlib

/-!
Verification of the command-handling layer of `vscode-ltex-plus`
(`src/CommandHandler.ts`), as a shallow embedding in Lean 4.

Two subsystems are embedded:
* the batch checker `checkAllDocumentsInWorkspace` (document discovery,
  deterministic ordering, cooperative cancellation, fail-fast on the first
  failing document), together with `getEnabledFileExtensions`;
* the setting resolver/merger `addToLanguageSpecificSetting` with its two
  persistence paths `addToLanguageSpecificSettingExternalFile` and
  `addToLanguageSpecificSettingInternalSetting`.

External collaborators (the VS Code configuration store, the language
client, the external-file manager and the file system) are modelled as
explicit parameters; observable interactions with them are recorded as an
effect trace.
-/

/-! ## String-ordering and prefix/suffix primitives -/

/-- Models the string ordering used by the code: `localeCompare` for the
URI sort and the default `Array.prototype.sort` comparator for file
extensions.  For the ASCII strings involved both coincide with
code-point-lexicographic order on the character sequence. -/
def strLe (a b : String) : Prop := a.data ≤ b.data

instance : DecidableRel strLe := fun a b => inferInstanceAs (Decidable (a.data ≤ b.data))

instance : IsTotal String strLe := ⟨fun a b => le_total a.data b.data⟩

instance : IsTrans String strLe := ⟨fun _ _ _ h₁ h₂ => le_trans h₁ h₂⟩

/-- Models JavaScript `String.prototype.startsWith`: the characters of `p`
form an initial segment of the characters of `s`. -/
def strStartsWith (s p : String) : Bool := p.data.isPrefixOf s.data

/-- Models JavaScript `String.prototype.endsWith`: the characters of `p`
form a final segment of the characters of `s`. -/
def strEndsWith (s p : String) : Bool := p.data.isSuffixOf s.data

/-! ## `getEnabledFileExtensions` (CommandHandler.ts lines 162-194) -/

/-- The `ltex.enabled` setting: either a boolean or an explicit list of
code language identifiers. -/
inductive EnabledSetting where
  | bool (b : Bool)
  | list (ids : List String)

/-- Insertion into a JavaScript `Set`, preserving first-insertion order. -/
def setAdd (s : List String) (x : String) : List String :=
  if x ∈ s then s else s ++ [x]

/-- The body of the `switch` statement over one code language identifier
(lines 176-190): `bibtex → bib`, `latex`/`rsweave → tex`,
`markdown → md`, anything else contributes nothing. -/
def extensionSwitch (acc : List String) (codeLanguageId : String) : List String :=
  if codeLanguageId = "bibtex" then setAdd acc "bib"
  else if codeLanguageId = "latex" ∨ codeLanguageId = "rsweave" then setAdd acc "tex"
  else if codeLanguageId = "markdown" then setAdd acc "md"
  else acc

/-- `CommandHandler.getEnabledFileExtensions`: expand a boolean `enabled`
to the fixed language list, map each enabled language to its extensions
collected in a set, and return the set's elements sorted
(`Array.from(enabledFileExtensions).sort()`). -/
def getEnabledFileExtensions (enabled : EnabledSetting) : List String :=
  let enabledCodeLanguageIds : List String :=
    match enabled with
    | .bool b => if b then ["bibtex", "latex", "markdown", "rsweave"] else []
    | .list ids => ids
  let enabledFileExtensions : List String :=
    enabledCodeLanguageIds.foldl extensionSwitch []
  List.insertionSort strLe enabledFileExtensions

/-! ## The batch checker `checkAllDocumentsInWorkspace` (lines 108-160) -/

/-- How the document loop of lines 141-147 terminates. -/
inductive LoopExit where
  | cancelledExit
  | checkFailed
  | completed
deriving DecidableEq, Repr

/-- The document loop of lines 141-147.  `check` is the single-document
check collaborator (`checkDocument`), `cancelled` gives the value of
`token.isCancellationRequested` at each successive poll, `pollIdx` counts
the polls performed so far.  Returns how the loop exited together with
the list of documents for which a check request was issued, in order. -/
def checkDocsLoop (check : String → Bool) (cancelled : Nat → Bool) :
    List String → Nat → LoopExit × List String
  | [], _ => (.completed, [])
  | doc :: rest, pollIdx =>
    if cancelled pollIdx then (.cancelledExit, [])
    else if check doc then
      let r := checkDocsLoop check cancelled rest (pollIdx + 1)
      (r.1, doc :: r.2)
    else (.checkFailed, [doc])

/-- The collaborators and external state consulted by one run of
`checkAllDocumentsInWorkspace`. -/
structure BatchEnv where
  /-- Whether `this._languageClient` is non-null. -/
  languageClientInitialized : Bool
  /-- The `ltex.enabled` configuration value. -/
  enabled : EnabledSetting
  /-- The file-system paths of the URIs returned by
  `Code.workspace.findFiles` for the extension glob. -/
  foundFiles : List String
  /-- The `success` field of the response of the single-document check
  collaborator for each document. -/
  checkResult : String → Bool
  /-- `token.isCancellationRequested` at the i-th poll of the token. -/
  cancelled : Nat → Bool

/-- Line 135: `uris.sort((lhs, rhs) => lhs.fsPath.localeCompare(rhs.fsPath))`. -/
def sortedUris (env : BatchEnv) : List String :=
  List.insertionSort strLe env.foundFiles

/-- `CommandHandler.checkAllDocumentsInWorkspace` (lines 108-160).
Returns the boolean result together with the list of documents for which
a check request was issued, in order.  Poll 0 of the cancellation token
is line 127; poll `i + 1` is the poll of line 144 before document `i`. -/
def checkAllDocumentsInWorkspace (env : BatchEnv) : Bool × List String :=
  if env.languageClientInitialized = false then (false, [])
  else if env.cancelled 0 then (true, [])
  else
    let fileExtensions := getEnabledFileExtensions env.enabled
    if fileExtensions.length = 0 then (true, [])
    else
      let uris := sortedUris env
      match checkDocsLoop env.checkResult env.cancelled uris 1 with
      | (.cancelledExit, checked) => (true, checked)
      | (.checkFailed, checked) => (false, checked)
      | (.completed, checked) =>
        if uris.length > 0 then (true, checked) else (false, checked)

/-! ## The setting resolver/merger (lines 253-342) -/

/-- A `LanguageSpecificSettingValue`: a JavaScript object mapping language
identifiers to entry lists, embedded as an association list in key
insertion order. -/
abbrev LangMap := List (String × List String)

/-- `vscode.ConfigurationTarget`. -/
inductive ConfigurationTarget where
  | Global
  | Workspace
  | WorkspaceFolder
deriving DecidableEq, Repr

/-- One observable interaction with a collaborator during
`addToLanguageSpecificSetting`: a logged error, an append to an external
file, or an attempted configuration update at a scope (`accepted`
records whether the store accepted or rejected the write). -/
inductive Effect where
  | logError (message : String)
  | appendToFile (path : String) (settingName : String) (values : List String)
  | updateAttempt (scope : ConfigurationTarget) (settingName : String)
      (value : LangMap) (accepted : Bool)
deriving DecidableEq, Repr

/-- The collaborators and external state consulted by one run of
`addToLanguageSpecificSetting` for a fixed document URI. -/
structure SettingEnv where
  /-- `ltex.configurationTarget.<key>` for the document, `none` when the
  read yields null/undefined. -/
  configurationTarget : String → Option String
  /-- `resourceConfig.get(settingName, {})`: the current stored value of
  the setting being modified. -/
  currentSetting : LangMap
  /-- `ExternalFileManager.getFirstExternalFilePath(uri, settingName,
  scope, language)`. -/
  externalFilePath : ConfigurationTarget → String → Option String
  /-- Whether `resourceConfig.update(..., scope)` resolves (`true`) or
  rejects (`false`) at each scope. -/
  updateAccepts : ConfigurationTarget → Bool

/-- Modelled from the spec: `WorkspaceConfigurationRequestHandler.
cleanUpWorkspaceSpecificStringArray` is not among the given sources.  The
spec describes it as the shared normalization routine — "deduplication
and deterministic ordering applied to a list-valued setting before
persistence" — and its merge example sends `[foo, foo, bar]` to
`[bar, foo]`: duplicates are removed and the remaining entries sorted. -/
def cleanUpWorkspaceSpecificStringArray (values : List String) : List String :=
  List.insertionSort strLe values.dedup

/-- Modelled from the spec: `ExternalFileManager.appendToFile` is not
among the given sources.  The spec gives the file store
"read/append/write(path, content)" semantics and its external-file step
says "append the new entries to that file", so the file's entry list
after the call is the old list followed by the passed values. -/
def appendToFileModel (contents values : List String) : List String :=
  contents ++ values

/-- Lines 255-270: read `ltex.configurationTarget.<settingName>`; when
that yields null/undefined, fall back to the deprecated alias setting for
the three known setting names. -/
def resolveScopeString (configurationTarget : String → Option String)
    (settingName : String) : Option String :=
  match configurationTarget settingName with
  | some s => some s
  | none =>
    if settingName = "dictionary" then configurationTarget "addToDictionary"
    else if settingName = "disabledRules" then configurationTarget "disableRule"
    else if settingName = "hiddenFalsePositives" then configurationTarget "ignoreRuleInSentence"
    else none

/-- Lines 272-285: map the resolved scope string to the scope chain;
`none` denotes the invalid case that logs an error and aborts. -/
def determineScopes : Option String → Option (List ConfigurationTarget)
  | none => some [.WorkspaceFolder, .Workspace, .Global]
  | some scopeString =>
    if strStartsWith scopeString "workspaceFolder" then
      some [.WorkspaceFolder, .Workspace, .Global]
    else if strStartsWith scopeString "workspace" then
      some [.Workspace, .Global]
    else if strStartsWith scopeString "user" || strStartsWith scopeString "global" then
      some [.Global]
    else none

/-- Lines 300-309: walk the scope chain and return the first external
file path the file manager reports for the language, if any. -/
def getFirstExternalFilePathInScopes
    (externalFilePath : ConfigurationTarget → String → Option String)
    (language : String) : List ConfigurationTarget → Option String
  | [] => none
  | scope :: rest =>
    match externalFilePath scope language with
    | some path => some path
    | none => getFirstExternalFilePathInScopes externalFilePath language rest

/-- Lookup of a key in a `LangMap` (JavaScript `settingValue[language]`). -/
def lookupLang : LangMap → String → Option (List String)
  | [], _ => none
  | p :: rest, language =>
    if p.1 = language then some p.2 else lookupLang rest language

/-- JavaScript object assignment `settingValue[language] = value`:
overwrite in place when the key exists, otherwise add it at the end. -/
def setLang : LangMap → String → List String → LangMap
  | [], language, value => [(language, value)]
  | p :: rest, language, value =>
    if p.1 = language then (language, value) :: rest
    else p :: setLang rest language value

/-- Lines 325-332: merge the incoming entries into the current setting
value, normalizing each touched language's combined list. -/
def mergeEntries (settingValue : LangMap) (entries : LangMap) : LangMap :=
  entries.foldl
    (fun sv p =>
      setLang sv p.1
        (cleanUpWorkspaceSpecificStringArray ((lookupLang sv p.1).getD [] ++ p.2)))
    settingValue

/-- Lines 334-341: try the configuration update at each scope in order,
stopping at the first accepted write; when the last scope also rejects,
log the error. -/
def tryUpdateScopes (updateAccepts : ConfigurationTarget → Bool) (settingName : String)
    (settingValue : LangMap) : List ConfigurationTarget → List Effect
  | [] => []
  | scope :: rest =>
    if updateAccepts scope then
      [.updateAttempt scope settingName settingValue true]
    else if rest.isEmpty then
      [.updateAttempt scope settingName settingValue false,
        .logError ("couldNotSetConfiguration " ++ settingName)]
    else
      .updateAttempt scope settingName settingValue false ::
        tryUpdateScopes updateAccepts settingName settingValue rest

/-- `CommandHandler.addToLanguageSpecificSettingInternalSetting`
(lines 319-342). -/
def addToLanguageSpecificSettingInternalSetting (env : SettingEnv) (settingName : String)
    (scopes : List ConfigurationTarget) (entries : LangMap) : List Effect :=
  tryUpdateScopes env.updateAccepts settingName
    (mergeEntries env.currentSetting entries) scopes

/-- `CommandHandler.addToLanguageSpecificSettingExternalFile`
(lines 294-317). -/
def addToLanguageSpecificSettingExternalFile (env : SettingEnv) (settingName : String)
    (scopes : List ConfigurationTarget) : LangMap → List Effect
  | [] => []
  | p :: rest =>
    (match getFirstExternalFilePathInScopes env.externalFilePath p.1 scopes with
     | some path => [.appendToFile path settingName p.2]
     | none => addToLanguageSpecificSettingInternalSetting env settingName scopes [p]) ++
      addToLanguageSpecificSettingExternalFile env settingName scopes rest

/-- `CommandHandler.addToLanguageSpecificSetting` (lines 253-292). -/
def addToLanguageSpecificSetting (env : SettingEnv) (settingName : String)
    (entries : LangMap) : List Effect :=
  let scopeString := resolveScopeString env.configurationTarget settingName
  match determineScopes scopeString with
  | none =>
    [.logError ("invalidValueForConfigurationTarget " ++ scopeString.getD "")]
  | some scopes =>
    match scopeString with
    | none => addToLanguageSpecificSettingExternalFile env settingName scopes entries
    | some s =>
      if strEndsWith s "ExternalFile" then
        addToLanguageSpecificSettingExternalFile env settingName scopes entries
      else
        addToLanguageSpecificSettingInternalSetting env settingName scopes entries

/-! ## The identifier-to-extension map stated by the spec

Used to compare `getEnabledFileExtensions` against the spec's mapping
`bibtex → bib`, `latex → tex`, `rsweave → tex`, `markdown → md`. -/

/-- The extensions the spec assigns to one code language identifier. -/
def mappedExtensions (codeLanguageId : String) : List String :=
  if codeLanguageId = "bibtex" then ["bib"]
  else if codeLanguageId = "latex" ∨ codeLanguageId = "rsweave" then ["tex"]
  else if codeLanguageId = "markdown" then ["md"]
  else []

/-! ## Concrete sample environments -/

/-- A batch run over `[b.tex, a.tex, c.tex]` where checking `b.tex`
fails. -/
def failingBatchEnv : BatchEnv where
  languageClientInitialized := true
  enabled := .bool true
  foundFiles := ["b.tex", "a.tex", "c.tex"]
  checkResult := fun doc => if doc = "b.tex" then false else true
  cancelled := fun _ => false

/-- A batch run over `[b.tex, a.tex, c.tex]` where every check
succeeds. -/
def successBatchEnv : BatchEnv :=
  { failingBatchEnv with checkResult := fun _ => true }

/-- A batch run cancelled at the poll after discovery (poll 1), before
any document is checked. -/
def cancelledBatchEnv : BatchEnv :=
  { successBatchEnv with cancelled := fun i => if i = 0 then false else true }

/-- A document whose scope preference selects external-file storage at
workspace-folder scope, with an existing external file for `en-US`. -/
def extFileSettingEnv : SettingEnv where
  configurationTarget := fun key =>
    if key = "dictionary" then some "workspaceFolderExternalFile" else none
  currentSetting := [("en-US", ["foo"])]
  externalFilePath := fun scope language =>
    if scope = ConfigurationTarget.WorkspaceFolder ∧ language = "en-US" then
      some "/dict-en.txt"
    else none
  updateAccepts := fun _ => true

/-- A document whose scope preference selects inline user-scope storage;
all configuration writes are accepted. -/
def internalSettingEnv : SettingEnv where
  configurationTarget := fun key => if key = "dictionary" then some "user" else none
  currentSetting := [("de-DE", ["x"])]
  externalFilePath := fun _ _ => none
  updateAccepts := fun _ => true

/-- Like `internalSettingEnv`, but every configuration write is
rejected. -/
def rejectingSettingEnv : SettingEnv :=
  { internalSettingEnv with
      configurationTarget := fun key =>
        if key = "dictionary" then some "workspaceFolder" else none
      updateAccepts := fun _ => false }

/-- A document whose scope preference is the unrecognized string
`invalidScope`. -/
def invalidScopeSettingEnv : SettingEnv :=
  { internalSettingEnv with
      configurationTarget := fun key =>
        if key = "dictionary" then some "invalidScope" else none }

/-- A document whose primary scope preference is the empty string while
the deprecated alias holds `user`. -/
def emptyScopeSettingEnv : SettingEnv :=
  { internalSettingEnv with
      configurationTarget := fun key =>
        if key = "dictionary" then some ""
        else if key = "addToDictionary" then some "user" else none }

/-! ## Lemmas about the batch-checker loop -/

theorem checkDocsLoop_failFirst (check : String → Bool) (cancelled : Nat → Bool)
    (hnc : ∀ i, cancelled i = false) (pre : List String) :
    ∀ (d : String) (post : List String) (pollIdx : Nat),
      (∀ x ∈ pre, check x = true) → check d = false →
      checkDocsLoop check cancelled (pre ++ d :: post) pollIdx = (.checkFailed, pre ++ [d]) := by
  induction pre with
  | nil =>
    intro d post pollIdx _ hd
    simp [checkDocsLoop, hnc pollIdx, hd]
  | cons x pre' ih =>
    intro d post pollIdx hpre hd
    have hx : check x = true := hpre x (by simp)
    have hrec := ih d post (pollIdx + 1) (fun y hy => hpre y (by simp [hy])) hd
    simp [checkDocsLoop, hnc pollIdx, hx, hrec]

theorem checkDocsLoop_allSuccess (check : String → Bool) (cancelled : Nat → Bool)
    (hnc : ∀ i, cancelled i = false) (docs : List String) :
    ∀ pollIdx, (∀ x ∈ docs, check x = true) →
      checkDocsLoop check cancelled docs pollIdx = (.completed, docs) := by
  induction docs with
  | nil => intro pollIdx _; rfl
  | cons doc rest ih =>
    intro pollIdx hall
    have hd : check doc = true := hall doc (by simp)
    have hrec := ih (pollIdx + 1) (fun y hy => hall y (by simp [hy]))
    simp [checkDocsLoop, hnc pollIdx, hd, hrec]

/-- **C1.**  For every document list processed by the batch checker, on
the first document whose single-document check returns failure,
`checkAllDocumentsInWorkspace` returns failure immediately, and the
documents for which a check request was issued are exactly the
successful ones preceding it in the sorted list plus the failing one —
no later document is ever checked. -/
theorem claim_C1_failFast (env : BatchEnv) (pre : List String) (d : String) (post : List String)
    (hinit : env.languageClientInitialized = true)
    (hext : (getEnabledFileExtensions env.enabled).length ≠ 0)
    (hnc : ∀ i, env.cancelled i = false)
    (hsort : sortedUris env = pre ++ d :: post)
    (hpre : ∀ x ∈ pre, env.checkResult x = true)
    (hd : env.checkResult d = false) :
    checkAllDocumentsInWorkspace env = (false, pre ++ [d]) := by
  have hloop := checkDocsLoop_failFirst env.checkResult env.cancelled hnc pre d post 1 hpre hd
  simp [checkAllDocumentsInWorkspace, hinit, hnc 0, hext, hsort, hloop]

/-- Witness for C1: of the sorted documents `[a.tex, b.tex, c.tex]`,
`b.tex` (document 2 of 3) fails; the batch returns failure having issued
check requests only for `a.tex` and `b.tex` — never for `c.tex`. -/
theorem claim_C1_failFast_witness :
    checkAllDocumentsInWorkspace failingBatchEnv = (false, ["a.tex", "b.tex"]) :=
  claim_C1_failFast failingBatchEnv ["a.tex"] "b.tex" ["c.tex"] rfl (by decide)
    (fun _ => rfl) (by decide) (by decide) rfl

/-- **C9.**  With no cancellation and all checks succeeding, the batch
checker issues check requests exactly for the discovered documents
sorted by the locale-aware path ordering: the processed sequence is
sorted under `strLe` and is a permutation of the discovered set, hence
deterministic. -/
theorem claim_C9_deterministicOrder (env : BatchEnv)
    (hinit : env.languageClientInitialized = true)
    (hext : (getEnabledFileExtensions env.enabled).length ≠ 0)
    (hne : env.foundFiles ≠ [])
    (hnc : ∀ i, env.cancelled i = false)
    (hall : ∀ x ∈ env.foundFiles, env.checkResult x = true) :
    checkAllDocumentsInWorkspace env = (true, sortedUris env) ∧
      (sortedUris env).Sorted strLe ∧ (sortedUris env).Perm env.foundFiles := by
  have hperm : (sortedUris env).Perm env.foundFiles := List.perm_insertionSort strLe _
  have hall' : ∀ x ∈ sortedUris env, env.checkResult x = true := fun x hx =>
    hall x (hperm.mem_iff.mp hx)
  have hloop := checkDocsLoop_allSuccess env.checkResult env.cancelled hnc (sortedUris env) 1 hall'
  have hlen : (sortedUris env).length > 0 := by
    rw [hperm.length_eq]
    exact List.length_pos.mpr hne
  refine ⟨?_, List.sorted_insertionSort strLe _, hperm⟩
  simp [checkAllDocumentsInWorkspace, hinit, hnc 0, hext, hloop, hlen]

/-- Witness for C9: the discovered documents `[b.tex, a.tex, c.tex]` are
checked in the order `[a.tex, b.tex, c.tex]`. -/
theorem claim_C9_deterministicOrder_witness :
    checkAllDocumentsInWorkspace successBatchEnv = (true, sortedUris successBatchEnv) ∧
      sortedUris successBatchEnv = ["a.tex", "b.tex", "c.tex"] :=
  ⟨(claim_C9_deterministicOrder successBatchEnv rfl (by decide) (by decide)
      (fun _ => rfl) (by decide)).1, by decide⟩

/-- **C6.**  Cancellation observed at a poll of the token makes
`checkAllDocumentsInWorkspace` return success immediately: if the signal
is set at poll 0 the result is `(true, [])`; if it is set at poll 1
(after discovery, before the first document) the result is `(true, [])`
with zero documents checked; and whenever the document loop exits
through cancellation the overall result is success, never failure. -/
theorem claim_C6_cancellation (env : BatchEnv)
    (hinit : env.languageClientInitialized = true)
    (hext : (getEnabledFileExtensions env.enabled).length ≠ 0) :
    (env.cancelled 0 = true → checkAllDocumentsInWorkspace env = (true, [])) ∧
    (env.cancelled 0 = false → env.cancelled 1 = true → env.foundFiles ≠ [] →
      checkAllDocumentsInWorkspace env = (true, [])) ∧
    ((checkDocsLoop env.checkResult env.cancelled (sortedUris env) 1).1 = .cancelledExit →
      (checkAllDocumentsInWorkspace env).1 = true) := by
  refine ⟨fun h0 => by simp [checkAllDocumentsInWorkspace, hinit, h0], ?_, ?_⟩
  · intro h0 h1 hne
    have hperm : (sortedUris env).Perm env.foundFiles := List.perm_insertionSort strLe _
    obtain ⟨u, rest, hu⟩ : ∃ u rest, sortedUris env = u :: rest := by
      cases hc : sortedUris env with
      | nil =>
        rw [hc] at hperm
        exact absurd hperm.symm.eq_nil hne
      | cons u rest => exact ⟨u, rest, rfl⟩
    have hloop : checkDocsLoop env.checkResult env.cancelled (sortedUris env) 1 =
        (.cancelledExit, []) := by
      rw [hu]; simp [checkDocsLoop, h1]
    simp [checkAllDocumentsInWorkspace, hinit, h0, hext, hloop]
  · intro hexit
    by_cases h0 : env.cancelled 0 = true
    · simp [checkAllDocumentsInWorkspace, hinit, h0]
    · rcases hres : checkDocsLoop env.checkResult env.cancelled (sortedUris env) 1
        with ⟨resExit, checked⟩
      rw [hres] at hexit
      simp only at hexit
      subst hexit
      simp [checkAllDocumentsInWorkspace, hinit, h0, hext, hres]

/-- Witness for C6: a batch over `[b.tex, a.tex, c.tex]` cancelled at
poll 1 — after discovery, before any document — returns success with
zero documents checked. -/
theorem claim_C6_cancellation_witness :
    checkAllDocumentsInWorkspace cancelledBatchEnv = (true, []) :=
  (claim_C6_cancellation cancelledBatchEnv rfl (by decide)).2.1 rfl rfl (by decide)

/-! ## Lemmas about `getEnabledFileExtensions` -/

theorem mem_setAdd {acc : List String} {x e : String} :
    e ∈ setAdd acc x ↔ e ∈ acc ∨ e = x := by
  unfold setAdd
  split
  · next hx =>
    constructor
    · exact Or.inl
    · rintro (h | rfl)
      · exact h
      · exact hx
  · simp [List.mem_append]

theorem nodup_setAdd {acc : List String} {x : String} (h : acc.Nodup) :
    (setAdd acc x).Nodup := by
  unfold setAdd
  split
  · exact h
  · next hx => simp [List.nodup_append, h, hx]

theorem mem_extensionSwitch {acc : List String} {codeLanguageId e : String} :
    e ∈ extensionSwitch acc codeLanguageId ↔ e ∈ acc ∨ e ∈ mappedExtensions codeLanguageId := by
  unfold extensionSwitch mappedExtensions
  split_ifs <;> simp [mem_setAdd]

theorem nodup_extensionSwitch {acc : List String} {codeLanguageId : String} (h : acc.Nodup) :
    (extensionSwitch acc codeLanguageId).Nodup := by
  unfold extensionSwitch
  split_ifs <;> first | exact nodup_setAdd h | exact h

theorem mem_foldl_extensionSwitch (ids : List String) :
    ∀ (acc : List String) (e : String),
      e ∈ ids.foldl extensionSwitch acc ↔
        e ∈ acc ∨ ∃ codeLanguageId ∈ ids, e ∈ mappedExtensions codeLanguageId := by
  induction ids with
  | nil => simp
  | cons codeLanguageId rest ih =>
    intro acc e
    simp only [List.foldl_cons, ih, mem_extensionSwitch, List.mem_cons]
    constructor
    · rintro ((h | h) | ⟨l, hl, he⟩)
      · exact Or.inl h
      · exact Or.inr ⟨codeLanguageId, Or.inl rfl, h⟩
      · exact Or.inr ⟨l, Or.inr hl, he⟩
    · rintro (h | ⟨l, (rfl | hl), he⟩)
      · exact Or.inl (Or.inl h)
      · exact Or.inl (Or.inr he)
      · exact Or.inr ⟨l, hl, he⟩

theorem nodup_foldl_extensionSwitch (ids : List String) :
    ∀ acc : List String, acc.Nodup → (ids.foldl extensionSwitch acc).Nodup := by
  induction ids with
  | nil => exact fun _ h => h
  | cons codeLanguageId rest ih =>
    intro acc h
    exact ih _ (nodup_extensionSwitch h)

/-- **C8.**  `getEnabledFileExtensions` maps `enabled = true` to
`[bib, md, tex]` and `enabled = false` to the empty set; for an explicit
list of language identifiers the result holds exactly the union of each
listed identifier's mapped extensions (`bibtex → bib`,
`latex`/`rsweave → tex`, `markdown → md`); and the result is always
duplicate-free and lexicographically sorted. -/
theorem claim_C8_enabledFileExtensions :
    getEnabledFileExtensions (.bool true) = ["bib", "md", "tex"] ∧
    getEnabledFileExtensions (.bool false) = [] ∧
    (∀ ids e, e ∈ getEnabledFileExtensions (.list ids) ↔
      ∃ codeLanguageId ∈ ids, e ∈ mappedExtensions codeLanguageId) ∧
    (∀ enabled, (getEnabledFileExtensions enabled).Nodup ∧
      (getEnabledFileExtensions enabled).Sorted strLe) := by
  refine ⟨by decide, by decide, ?_, ?_⟩
  · intro ids e
    have hperm : (getEnabledFileExtensions (.list ids)).Perm (ids.foldl extensionSwitch []) :=
      List.perm_insertionSort strLe _
    rw [hperm.mem_iff, mem_foldl_extensionSwitch]
    simp
  · intro enabled
    have hperm : (getEnabledFileExtensions enabled).Perm
        ((match enabled with
          | .bool b => if b then ["bibtex", "latex", "markdown", "rsweave"] else []
          | .list ids => ids).foldl extensionSwitch []) :=
      List.perm_insertionSort strLe _
    refine ⟨hperm.nodup_iff.mpr (nodup_foldl_extensionSwitch _ _ (by simp)), ?_⟩
    exact List.sorted_insertionSort strLe _

/-! ## Lemmas about scope-string resolution -/

theorem isPrefixOf_cons_head_ne {c₁ c₂ : Char} {l₁ l₂ s : List Char} (hne : c₁ ≠ c₂)
    (h₁ : (c₁ :: l₁).isPrefixOf s = true) : (c₂ :: l₂).isPrefixOf s = false := by
  cases s with
  | nil => simp [List.isPrefixOf] at h₁
  | cons a s' =>
    simp only [List.isPrefixOf, Bool.and_eq_true, beq_iff_eq] at h₁
    have ha : a = c₁ := h₁.1.symm
    subst ha
    simp [List.isPrefixOf, Ne.symm hne]

theorem startsWith_user_elim {s : String} (h : strStartsWith s "user" = true) :
    strStartsWith s "workspaceFolder" = false ∧ strStartsWith s "workspace" = false :=
  ⟨isPrefixOf_cons_head_ne (by decide) h, isPrefixOf_cons_head_ne (by decide) h⟩

theorem startsWith_global_elim {s : String} (h : strStartsWith s "global" = true) :
    strStartsWith s "workspaceFolder" = false ∧ strStartsWith s "workspace" = false :=
  ⟨isPrefixOf_cons_head_ne (by decide) h, isPrefixOf_cons_head_ne (by decide) h⟩

/-- **C2.**  The scope-preference string for `settingName` is the primary
`ltex.configurationTarget` value when present, otherwise the deprecated
alias for that setting name; the resolved string maps to the scope chain
exactly as the claim states (`null`/`workspaceFolder…` → folder chain,
`workspace…` → workspace chain, `user…`/`global…` → global only), and
any string outside these families makes the whole operation produce one
logged error and nothing else — no configuration or file write. -/
theorem claim_C2_scopeChain :
    (∀ cfg settingName s, cfg settingName = some s →
      resolveScopeString cfg settingName = some s) ∧
    (∀ cfg, cfg "dictionary" = none →
      resolveScopeString cfg "dictionary" = cfg "addToDictionary") ∧
    (∀ cfg, cfg "disabledRules" = none →
      resolveScopeString cfg "disabledRules" = cfg "disableRule") ∧
    (∀ cfg, cfg "hiddenFalsePositives" = none →
      resolveScopeString cfg "hiddenFalsePositives" = cfg "ignoreRuleInSentence") ∧
    determineScopes none = some [.WorkspaceFolder, .Workspace, .Global] ∧
    (∀ s, strStartsWith s "workspaceFolder" = true →
      determineScopes (some s) = some [.WorkspaceFolder, .Workspace, .Global]) ∧
    (∀ s, strStartsWith s "workspace" = true → strStartsWith s "workspaceFolder" = false →
      determineScopes (some s) = some [.Workspace, .Global]) ∧
    (∀ s, strStartsWith s "user" = true ∨ strStartsWith s "global" = true →
      determineScopes (some s) = some [.Global]) ∧
    (∀ env settingName entries s,
      resolveScopeString env.configurationTarget settingName = some s →
      determineScopes (some s) = none →
      addToLanguageSpecificSetting env settingName entries =
        [.logError ("invalidValueForConfigurationTarget " ++ s)]) := by
  refine ⟨fun cfg settingName s h => by simp [resolveScopeString, h],
    fun cfg h => by simp [resolveScopeString, h],
    fun cfg h => by simp [resolveScopeString, h],
    fun cfg h => by simp [resolveScopeString, h],
    rfl,
    fun s h => by simp [determineScopes, h],
    fun s h1 h2 => by simp [determineScopes, h1, h2],
    ?_, ?_⟩
  · rintro s (h | h)
    · obtain ⟨hwf, hw⟩ := startsWith_user_elim h
      simp [determineScopes, hwf, hw, h]
    · obtain ⟨hwf, hw⟩ := startsWith_global_elim h
      simp [determineScopes, hwf, hw, h]
  · intro env settingName entries s hres hdet
    simp [addToLanguageSpecificSetting, hres, hdet]

/-- Witness for C2: the unrecognized scope string `invalidScope` makes
`addToLanguageSpecificSetting` produce exactly one logged error. -/
theorem claim_C2_scopeChain_witness :
    addToLanguageSpecificSetting invalidScopeSettingEnv "dictionary" [("en-US", ["foo"])] =
      [Effect.logError ("invalidValueForConfigurationTarget " ++ "invalidScope")] :=
  claim_C2_scopeChain.2.2.2.2.2.2.2.2 invalidScopeSettingEnv "dictionary" [("en-US", ["foo"])]
    "invalidScope" (by decide) (by decide)

/-- **C10.**  When the primary scope-preference value is the empty string
(a non-null value), the deprecated aliases are not consulted — the
resolved string is the empty string whatever the alias settings hold —
and the empty string is treated as invalid: the operation produces
exactly one logged error and no configuration or file write. -/
theorem claim_C10_emptyScopeString :
    (∀ cfg settingName, cfg settingName = some "" →
      resolveScopeString cfg settingName = some "") ∧
    determineScopes (some "") = none ∧
    (∀ env settingName entries, env.configurationTarget settingName = some "" →
      addToLanguageSpecificSetting env settingName entries =
        [.logError ("invalidValueForConfigurationTarget " ++ "")]) := by
  have hdet : determineScopes (some "") = none := by decide
  refine ⟨fun cfg settingName h => by simp [resolveScopeString, h], hdet, ?_⟩
  intro env settingName entries h
  have hres : resolveScopeString env.configurationTarget settingName = some "" := by
    simp [resolveScopeString, h]
  simp [addToLanguageSpecificSetting, hres, hdet]

/-- Witness for C10: with the primary value `""` and the deprecated alias
`addToDictionary` set to `user`, the alias is ignored and the operation
logs a single error. -/
theorem claim_C10_emptyScopeString_witness :
    addToLanguageSpecificSetting emptyScopeSettingEnv "dictionary" [("en-US", ["foo"])] =
      [Effect.logError ("invalidValueForConfigurationTarget " ++ "")] :=
  claim_C10_emptyScopeString.2.2 emptyScopeSettingEnv "dictionary" [("en-US", ["foo"])]
    (by decide)

/-! ## Lemmas about the language-map merge -/

theorem lookupLang_setLang_self (m : LangMap) (k : String) (v : List String) :
    lookupLang (setLang m k v) k = some v := by
  induction m with
  | nil => simp [setLang, lookupLang]
  | cons p rest ih =>
    by_cases h : p.1 = k
    · simp [setLang, lookupLang, h]
    · simp [setLang, lookupLang, h, ih]

theorem lookupLang_setLang_ne (m : LangMap) {k k' : String} (v : List String) (h : k ≠ k') :
    lookupLang (setLang m k v) k' = lookupLang m k' := by
  induction m with
  | nil => simp [setLang, lookupLang, h]
  | cons p rest ih =>
    by_cases hp : p.1 = k
    · simp [setLang, lookupLang, hp, h]
    · simp [setLang, lookupLang, hp, ih]

theorem mergeEntries_nil (sv : LangMap) : mergeEntries sv [] = sv := rfl

theorem mergeEntries_cons (sv : LangMap) (p : String × List String) (rest : LangMap) :
    mergeEntries sv (p :: rest) =
      mergeEntries
        (setLang sv p.1
          (cleanUpWorkspaceSpecificStringArray ((lookupLang sv p.1).getD [] ++ p.2)))
        rest := rfl

theorem lookupLang_mergeEntries_notMem (entries : LangMap) :
    ∀ (sv : LangMap) (k : String), k ∉ entries.map Prod.fst →
      lookupLang (mergeEntries sv entries) k = lookupLang sv k := by
  induction entries with
  | nil => intro sv k _; rfl
  | cons p rest ih =>
    intro sv k hk
    simp only [List.map_cons, List.mem_cons] at hk
    push_neg at hk
    rw [mergeEntries_cons, ih _ _ hk.2, lookupLang_setLang_ne _ _ (Ne.symm hk.1)]

theorem lookupLang_mergeEntries (entries : LangMap) :
    ∀ (sv : LangMap) (lang : String) (es : List String),
      (entries.map Prod.fst).Nodup → (lang, es) ∈ entries →
      lookupLang (mergeEntries sv entries) lang =
        some (cleanUpWorkspaceSpecificStringArray ((lookupLang sv lang).getD [] ++ es)) := by
  induction entries with
  | nil => intro sv lang es _ hmem; simp at hmem
  | cons p rest ih =>
    intro sv lang es hnd hmem
    simp only [List.map_cons, List.nodup_cons] at hnd
    rcases List.mem_cons.mp hmem with heq | hmem'
    · have hp1 : p.1 = lang := by rw [← heq]
      have hp2 : p.2 = es := by rw [← heq]
      have hnotin : lang ∉ rest.map Prod.fst := hp1 ▸ hnd.1
      rw [mergeEntries_cons, lookupLang_mergeEntries_notMem rest _ _ hnotin, hp1, hp2,
        lookupLang_setLang_self]
    · have hne : p.1 ≠ lang := by
        intro hcontra
        exact hnd.1 (hcontra ▸ List.mem_map_of_mem Prod.fst hmem')
      rw [mergeEntries_cons, ih _ _ _ hnd.2 hmem', lookupLang_setLang_ne _ _ hne]

/-! ## Lemmas about the scope-fallback write loop -/

theorem tryUpdateScopes_cons_accept {accepts : ConfigurationTarget → Bool} {settingName : String}
    {v : LangMap} {scope : ConfigurationTarget} (rest : List ConfigurationTarget)
    (hs : accepts scope = true) :
    tryUpdateScopes accepts settingName v (scope :: rest) =
      [Effect.updateAttempt scope settingName v true] := by
  cases rest <;> simp [tryUpdateScopes, hs]

theorem tryUpdateScopes_last_reject {accepts : ConfigurationTarget → Bool} {settingName : String}
    {v : LangMap} {scope : ConfigurationTarget} (hs : accepts scope = false) :
    tryUpdateScopes accepts settingName v [scope] =
      [Effect.updateAttempt scope settingName v false,
        Effect.logError ("couldNotSetConfiguration " ++ settingName)] := by
  simp [tryUpdateScopes, hs]

theorem tryUpdateScopes_cons_reject {accepts : ConfigurationTarget → Bool} {settingName : String}
    {v : LangMap} {scope : ConfigurationTarget} {r : ConfigurationTarget}
    (rs : List ConfigurationTarget) (hs : accepts scope = false) :
    tryUpdateScopes accepts settingName v (scope :: r :: rs) =
      Effect.updateAttempt scope settingName v false ::
        tryUpdateScopes accepts settingName v (r :: rs) := by
  by_cases hr : accepts r = true <;> cases rs <;> simp [tryUpdateScopes, hs, hr]

theorem tryUpdateScopes_eq (accepts : ConfigurationTarget → Bool) (settingName : String)
    (v : LangMap) :
    ∀ scopes : List ConfigurationTarget, scopes ≠ [] →
      tryUpdateScopes accepts settingName v scopes =
        (scopes.takeWhile fun s => !accepts s).map
          (fun s => Effect.updateAttempt s settingName v false) ++
        (match scopes.dropWhile (fun s => !accepts s) with
         | s :: _ => [Effect.updateAttempt s settingName v true]
         | [] => [Effect.logError ("couldNotSetConfiguration " ++ settingName)]) := by
  intro scopes
  induction scopes with
  | nil => intro h; exact absurd rfl h
  | cons scope rest ih =>
    intro _
    by_cases hs : accepts scope = true
    · rw [tryUpdateScopes_cons_accept rest hs, List.takeWhile_cons, List.dropWhile_cons]
      simp [hs]
    · have hs' : accepts scope = false := by simpa using hs
      rw [List.takeWhile_cons, List.dropWhile_cons]
      cases rest with
      | nil =>
        rw [tryUpdateScopes_last_reject hs']
        simp [hs']
      | cons r rs =>
        rw [tryUpdateScopes_cons_reject rs hs', ih (by simp)]
        simp [hs']

theorem logError_mem_tryUpdateScopes (accepts : ConfigurationTarget → Bool)
    (settingName : String) (v : LangMap) (scopes : List ConfigurationTarget)
    (hne : scopes ≠ []) :
    (Effect.logError ("couldNotSetConfiguration " ++ settingName) ∈
        tryUpdateScopes accepts settingName v scopes) ↔
      ∀ s ∈ scopes, accepts s = false := by
  rw [tryUpdateScopes_eq accepts settingName v scopes hne]
  rcases hdrop : scopes.dropWhile (fun s => !accepts s) with _ | ⟨s, srest⟩
  · have hall := List.dropWhile_eq_nil_iff.mp hdrop
    simp only [List.mem_append, List.mem_map]
    constructor
    · intro _ x hx
      simpa using hall x hx
    · intro _
      simp
  · simp only [List.mem_append, List.mem_map]
    constructor
    · rintro (⟨x, _, hx⟩ | h)
      · exact absurd hx (by simp)
      · simp at h
    · intro hall
      have hnil : scopes.dropWhile (fun s => !accepts s) = [] :=
        List.dropWhile_eq_nil_iff.mpr (fun x hx => by simp [hall x hx])
      rw [hdrop] at hnil
      simp at hnil

theorem mem_tryUpdateScopes {accepts : ConfigurationTarget → Bool} {settingName : String}
    {v : LangMap} :
    ∀ {scopes : List ConfigurationTarget} {e : Effect},
      e ∈ tryUpdateScopes accepts settingName v scopes →
      e = Effect.logError ("couldNotSetConfiguration " ++ settingName) ∨
        ∃ scope b, e = Effect.updateAttempt scope settingName v b := by
  intro scopes
  induction scopes with
  | nil => intro e h; simp [tryUpdateScopes] at h
  | cons scope rest ih =>
    intro e h
    by_cases hs : accepts scope = true
    · rw [tryUpdateScopes_cons_accept rest hs] at h
      simp only [List.mem_singleton] at h
      exact Or.inr ⟨scope, true, h⟩
    · have hs' : accepts scope = false := by simpa using hs
      cases rest with
      | nil =>
        rw [tryUpdateScopes_last_reject hs'] at h
        rcases List.mem_cons.mp h with heq | h'
        · exact Or.inr ⟨scope, false, heq⟩
        · simp only [List.mem_singleton] at h'
          exact Or.inl h'
      | cons r rs =>
        rw [tryUpdateScopes_cons_reject rs hs'] at h
        rcases List.mem_cons.mp h with heq | h'
        · exact Or.inr ⟨scope, false, heq⟩
        · exact ih h'

/-- **C4.**  The inline write tries the scopes of the chain in order:
the emitted trace is the rejected attempts over the longest rejecting
prefix followed by one accepted attempt at the first accepting scope —
nothing afterwards — or, when every scope rejects, by a single logged
error naming the setting; accordingly the error is logged if and only if
every scope in the chain rejects.  (Rejections are absorbed by the
operation: the trace is its entire observable behaviour, nothing is
re-thrown.) -/
theorem claim_C4_scopeFallback :
    (∀ (env : SettingEnv) (settingName : String) (scopes : List ConfigurationTarget)
        (entries : LangMap), scopes ≠ [] →
      addToLanguageSpecificSettingInternalSetting env settingName scopes entries =
        (scopes.takeWhile fun s => !env.updateAccepts s).map
          (fun s => Effect.updateAttempt s settingName
            (mergeEntries env.currentSetting entries) false) ++
        (match scopes.dropWhile (fun s => !env.updateAccepts s) with
         | s :: _ => [Effect.updateAttempt s settingName
             (mergeEntries env.currentSetting entries) true]
         | [] => [Effect.logError ("couldNotSetConfiguration " ++ settingName)])) ∧
    (∀ (env : SettingEnv) (settingName : String) (scopes : List ConfigurationTarget)
        (entries : LangMap), scopes ≠ [] →
      (Effect.logError ("couldNotSetConfiguration " ++ settingName) ∈
          addToLanguageSpecificSettingInternalSetting env settingName scopes entries ↔
        ∀ s ∈ scopes, env.updateAccepts s = false)) :=
  ⟨fun env settingName scopes _ h => tryUpdateScopes_eq env.updateAccepts settingName _ scopes h,
   fun env settingName scopes _ h =>
     logError_mem_tryUpdateScopes env.updateAccepts settingName _ scopes h⟩

/-- Witness for C4: with every scope rejecting the write, the error
naming the setting is logged. -/
theorem claim_C4_scopeFallback_witness :
    Effect.logError ("couldNotSetConfiguration " ++ "dictionary") ∈
      addToLanguageSpecificSettingInternalSetting rejectingSettingEnv "dictionary"
        [ConfigurationTarget.WorkspaceFolder, ConfigurationTarget.Workspace,
          ConfigurationTarget.Global] [("en-US", ["foo"])] :=
  (claim_C4_scopeFallback.2 rejectingSettingEnv "dictionary"
      [ConfigurationTarget.WorkspaceFolder, ConfigurationTarget.Workspace,
        ConfigurationTarget.Global] [("en-US", ["foo"])] (by decide)).mpr (by decide)

/-! ## Lemmas about the external-file path -/

theorem getFirstExternalFilePathInScopes_eq
    (externalFilePath : ConfigurationTarget → String → Option String) (language : String) :
    ∀ scopes : List ConfigurationTarget,
      getFirstExternalFilePathInScopes externalFilePath language scopes =
        match scopes.dropWhile (fun s => (externalFilePath s language).isNone) with
        | [] => none
        | s :: _ => externalFilePath s language := by
  intro scopes
  induction scopes with
  | nil => rfl
  | cons scope rest ih =>
    rw [List.dropWhile_cons]
    rcases hf : externalFilePath scope language with _ | path
    · simp [getFirstExternalFilePathInScopes, hf, ih]
    · simp [getFirstExternalFilePathInScopes, hf]

theorem addToLanguageSpecificSettingExternalFile_eq (env : SettingEnv) (settingName : String)
    (scopes : List ConfigurationTarget) :
    ∀ entries : LangMap,
      addToLanguageSpecificSettingExternalFile env settingName scopes entries =
        entries.flatMap (fun p =>
          match getFirstExternalFilePathInScopes env.externalFilePath p.1 scopes with
          | some path => [Effect.appendToFile path settingName p.2]
          | none => addToLanguageSpecificSettingInternalSetting env settingName scopes [p]) := by
  intro entries
  induction entries with
  | nil => rfl
  | cons p rest ih =>
    rw [List.flatMap_cons, ← ih]
    rfl

theorem appendEffect_mem_external (env : SettingEnv) (settingName : String)
    (scopes : List ConfigurationTarget) (entries : LangMap) (lang : String)
    (es : List String) (path : String) (hmem : (lang, es) ∈ entries)
    (hfirst : getFirstExternalFilePathInScopes env.externalFilePath lang scopes = some path) :
    Effect.appendToFile path settingName es ∈
      addToLanguageSpecificSettingExternalFile env settingName scopes entries := by
  rw [addToLanguageSpecificSettingExternalFile_eq, List.mem_flatMap]
  exact ⟨(lang, es), hmem, by simp [hfirst]⟩

theorem updateAttempt_mem_external {env : SettingEnv} {settingName : String}
    {scopes : List ConfigurationTarget} {entries : LangMap} {scope : ConfigurationTarget}
    {n' : String} {v : LangMap} {b : Bool}
    (h : Effect.updateAttempt scope n' v b ∈
      addToLanguageSpecificSettingExternalFile env settingName scopes entries) :
    ∃ p ∈ entries, v = mergeEntries env.currentSetting [p] := by
  rw [addToLanguageSpecificSettingExternalFile_eq, List.mem_flatMap] at h
  obtain ⟨p, hp, hin⟩ := h
  rcases hf : getFirstExternalFilePathInScopes env.externalFilePath p.1 scopes with _ | path
  · rw [hf] at hin
    rcases mem_tryUpdateScopes hin with heq | ⟨sc, bb, heq⟩
    · cases heq
    · injection heq with h1 h2 h3 h4
      exact ⟨p, hp, h3⟩
  · rw [hf] at hin
    have hin' : Effect.updateAttempt scope n' v b ∈
        [Effect.appendToFile path settingName p.2] := hin
    simp at hin'

/-- **C3.**  In external-file mode each language of the incoming map is
handled independently: its whole per-language contribution is a single
append to the external file found at the first scope of the chain that
has one (the walk skips exactly the scopes with no existing file), and
every append effect targets such an existing file — no new file is
created, no second scope written; a language with no existing file in
any scope is persisted through the inline path with a one-key map
holding only that language's entries. -/
theorem claim_C3_externalFileMode :
    (∀ (env : SettingEnv) (settingName : String) (scopes : List ConfigurationTarget)
        (entries : LangMap),
      addToLanguageSpecificSettingExternalFile env settingName scopes entries =
        entries.flatMap (fun p =>
          match getFirstExternalFilePathInScopes env.externalFilePath p.1 scopes with
          | some path => [Effect.appendToFile path settingName p.2]
          | none => addToLanguageSpecificSettingInternalSetting env settingName scopes [p])) ∧
    (∀ (externalFilePath : ConfigurationTarget → String → Option String) (language : String)
        (scopes : List ConfigurationTarget),
      getFirstExternalFilePathInScopes externalFilePath language scopes =
        match scopes.dropWhile (fun s => (externalFilePath s language).isNone) with
        | [] => none
        | s :: _ => externalFilePath s language) ∧
    (∀ (env : SettingEnv) (settingName : String) (scopes : List ConfigurationTarget)
        (entries : LangMap) (path n' : String) (vals : List String),
      Effect.appendToFile path n' vals ∈
          addToLanguageSpecificSettingExternalFile env settingName scopes entries →
      n' = settingName ∧ ∃ p ∈ entries, vals = p.2 ∧
        getFirstExternalFilePathInScopes env.externalFilePath p.1 scopes = some path) := by
  refine ⟨fun env settingName scopes entries =>
      addToLanguageSpecificSettingExternalFile_eq env settingName scopes entries,
    fun externalFilePath language scopes =>
      getFirstExternalFilePathInScopes_eq externalFilePath language scopes, ?_⟩
  intro env settingName scopes entries path n' vals h
  rw [addToLanguageSpecificSettingExternalFile_eq, List.mem_flatMap] at h
  obtain ⟨p, hp, hin⟩ := h
  rcases hf : getFirstExternalFilePathInScopes env.externalFilePath p.1 scopes with _ | path'
  · rw [hf] at hin
    rcases mem_tryUpdateScopes hin with heq | ⟨sc, bb, heq⟩ <;> cases heq
  · rw [hf] at hin
    have hin' : Effect.appendToFile path n' vals ∈
        [Effect.appendToFile path' settingName p.2] := hin
    simp only [List.mem_singleton] at hin'
    injection hin' with h1 h2 h3
    subst h1 h2 h3
    exact ⟨rfl, p, hp, rfl, hf⟩

/-- Witness for C3: with an existing external file at workspace-folder
scope, the `en-US` entries produce exactly one append targeting that
file. -/
theorem claim_C3_externalFileMode_witness :
    "dictionary" = "dictionary" ∧ ∃ p ∈ ([("en-US", ["foo", "bar"])] : LangMap),
      ["foo", "bar"] = p.2 ∧
      getFirstExternalFilePathInScopes extFileSettingEnv.externalFilePath p.1
        [ConfigurationTarget.WorkspaceFolder, ConfigurationTarget.Workspace,
          ConfigurationTarget.Global] = some "/dict-en.txt" :=
  claim_C3_externalFileMode.2.2 extFileSettingEnv "dictionary"
    [ConfigurationTarget.WorkspaceFolder, ConfigurationTarget.Workspace,
      ConfigurationTarget.Global] [("en-US", ["foo", "bar"])] "/dict-en.txt" "dictionary"
    ["foo", "bar"] (by decide)

/-- Counterexample for C5: the claim fails on the external-file
persistence path.  With an existing file at folder scope holding
`[foo]`, adding `{en-US: [foo, bar]}` hands the raw list `[foo, bar]`
to the append collaborator, so the file's persisted list becomes
`[foo, foo, bar]` — not the normalization `[bar, foo]` of the existing
entries concatenated with the new ones; the duplicate `foo` survives. -/
theorem claim_C5_counterexample :
    addToLanguageSpecificSetting extFileSettingEnv "dictionary" [("en-US", ["foo", "bar"])] =
      [Effect.appendToFile "/dict-en.txt" "dictionary" ["foo", "bar"]] ∧
    appendToFileModel ["foo"] ["foo", "bar"] = ["foo", "foo", "bar"] ∧
    cleanUpWorkspaceSpecificStringArray (["foo"] ++ ["foo", "bar"]) = ["bar", "foo"] ∧
    (["foo", "foo", "bar"] : List String) ≠ ["bar", "foo"] := by
  refine ⟨by decide, rfl, by decide, by decide⟩

/-- **C5 (amended).**  The inline structured-setting path — including
the external mode's per-language fallback, which goes through the same
function — persists for each incoming language the normalization
(deduplication plus lexicographic ordering by the shared clean-up
routine) of the existing entries concatenated with the new ones; in
particular merging `{en-US: [foo]}` with `{en-US: [foo, bar]}` persists
`[bar, foo]` with no duplicate `foo`.  The external-file path with an
existing file instead appends the raw new entries unchanged, with no
normalization at this layer. -/
theorem claim_C5_normalizedMerge :
    (∀ (current entries : LangMap) (lang : String) (es : List String),
      (entries.map Prod.fst).Nodup → (lang, es) ∈ entries →
      lookupLang (mergeEntries current entries) lang =
        some (cleanUpWorkspaceSpecificStringArray ((lookupLang current lang).getD [] ++ es))) ∧
    (∀ (env : SettingEnv) (settingName : String) (scopes : List ConfigurationTarget)
        (entries : LangMap) (scope : ConfigurationTarget) (v : LangMap) (b : Bool),
      Effect.updateAttempt scope settingName v b ∈
          addToLanguageSpecificSettingInternalSetting env settingName scopes entries →
      v = mergeEntries env.currentSetting entries) ∧
    (∀ (env : SettingEnv) (settingName : String) (scopes : List ConfigurationTarget)
        (entries : LangMap) (lang : String) (es : List String) (path : String),
      (lang, es) ∈ entries →
      getFirstExternalFilePathInScopes env.externalFilePath lang scopes = some path →
      Effect.appendToFile path settingName es ∈
        addToLanguageSpecificSettingExternalFile env settingName scopes entries) ∧
    mergeEntries [("en-US", ["foo"])] [("en-US", ["foo", "bar"])] = [("en-US", ["bar", "foo"])] := by
  refine ⟨fun current entries lang es hnd hmem =>
      lookupLang_mergeEntries entries current lang es hnd hmem, ?_,
    fun env settingName scopes entries lang es path hmem hfirst =>
      appendEffect_mem_external env settingName scopes entries lang es path hmem hfirst,
    by decide⟩
  intro env settingName scopes entries scope v b h
  rcases mem_tryUpdateScopes h with heq | ⟨sc, bb, heq⟩
  · cases heq
  · exact congrArg
      (fun e => match e with
        | Effect.updateAttempt _ _ v _ => v
        | _ => v) heq

/-- Witness for C5 (amended): merging existing `{en-US: [foo]}` with
added `{en-US: [foo, bar]}` stores the normalized list for `en-US`. -/
theorem claim_C5_normalizedMerge_witness :
    lookupLang (mergeEntries [("en-US", ["foo"])] [("en-US", ["foo", "bar"])]) "en-US" =
      some (cleanUpWorkspaceSpecificStringArray
        ((lookupLang [("en-US", ["foo"])] "en-US").getD [] ++ ["foo", "bar"])) :=
  claim_C5_normalizedMerge.1 [("en-US", ["foo"])] [("en-US", ["foo", "bar"])] "en-US"
    ["foo", "bar"] (by decide) (by decide)

/-! ## Lemmas about the whole `addToLanguageSpecificSetting` trace -/

theorem updateAttempt_value_eq {scope sc : ConfigurationTarget} {n n' : String}
    {v v' : LangMap} {b b' : Bool}
    (h : Effect.updateAttempt scope n v b = Effect.updateAttempt sc n' v' b') : v = v' :=
  congrArg (fun e => match e with | Effect.updateAttempt _ _ w _ => w | _ => v) h

theorem mem_addToLanguageSpecificSetting {env : SettingEnv} {settingName : String}
    {e : Effect} {entries : LangMap}
    (h : e ∈ addToLanguageSpecificSetting env settingName entries) :
    e = Effect.logError ("invalidValueForConfigurationTarget " ++
        ((resolveScopeString env.configurationTarget settingName).getD "")) ∨
      (∃ scopes, e ∈ addToLanguageSpecificSettingExternalFile env settingName scopes entries) ∨
      (∃ scopes, e ∈ addToLanguageSpecificSettingInternalSetting env settingName scopes entries) := by
  simp only [addToLanguageSpecificSetting] at h
  rcases hss : resolveScopeString env.configurationTarget settingName with _ | s <;>
    rw [hss] at h
  · exact Or.inr (Or.inl ⟨_, h⟩)
  · rcases hdet : determineScopes (some s) with _ | scopes <;> rw [hdet] at h
    · simp only [List.mem_singleton] at h
      subst h
      exact Or.inl rfl
    · have h' : e ∈
          (if strEndsWith s "ExternalFile" = true then
            addToLanguageSpecificSettingExternalFile env settingName scopes entries
          else addToLanguageSpecificSettingInternalSetting env settingName scopes entries) := h
      by_cases hend : strEndsWith s "ExternalFile" = true
      · rw [if_pos hend] at h'
        exact Or.inr (Or.inl ⟨scopes, h'⟩)
      · rw [if_neg hend] at h'
        exact Or.inr (Or.inr ⟨scopes, h'⟩)

/-- **C7.**  Language keys absent from the incoming entries map are never
touched: every configuration value handed to an update attempt (on
either persistence path) agrees with the previously stored value on all
such keys; and a call with an empty entries map never appends to a file
and hands every update attempt exactly the previously stored mapping,
changing no stored setting. -/
theorem claim_C7_untouchedLanguages :
    (∀ (env : SettingEnv) (settingName : String) (entries : LangMap) (k : String)
        (scope : ConfigurationTarget) (n' : String) (v : LangMap) (b : Bool),
      k ∉ entries.map Prod.fst →
      Effect.updateAttempt scope n' v b ∈ addToLanguageSpecificSetting env settingName entries →
      lookupLang v k = lookupLang env.currentSetting k) ∧
    (∀ (env : SettingEnv) (settingName : String) (e : Effect),
      e ∈ addToLanguageSpecificSetting env settingName [] →
      (∀ path n'' vals, e ≠ Effect.appendToFile path n'' vals) ∧
      (∀ scope n'' v b, e = Effect.updateAttempt scope n'' v b →
        v = env.currentSetting)) := by
  constructor
  · intro env settingName entries k scope n' v b hk hmem
    rcases mem_addToLanguageSpecificSetting hmem with heq | ⟨scopes, hext⟩ | ⟨scopes, hint⟩
    · cases heq
    · obtain ⟨p, hp, hv⟩ := updateAttempt_mem_external hext
      subst hv
      refine lookupLang_mergeEntries_notMem [p] _ _ ?_
      simp only [List.map_cons, List.map_nil, List.mem_singleton]
      intro hkp
      exact hk (hkp ▸ List.mem_map_of_mem Prod.fst hp)
    · rcases mem_tryUpdateScopes hint with heq | ⟨sc, bb, heq⟩
      · cases heq
      · rw [updateAttempt_value_eq heq]
        exact lookupLang_mergeEntries_notMem entries _ _ hk
  · intro env settingName e hmem
    rcases mem_addToLanguageSpecificSetting hmem with heq | ⟨scopes, hext⟩ | ⟨scopes, hint⟩
    · subst heq
      exact ⟨fun _ _ _ h => Effect.noConfusion h, fun _ _ _ _ h => Effect.noConfusion h⟩
    · have hnil : addToLanguageSpecificSettingExternalFile env settingName scopes
          ([] : LangMap) = [] := rfl
      rw [hnil] at hext
      cases hext
    · rcases mem_tryUpdateScopes hint with heq | ⟨sc, bb, heq⟩
      · subst heq
        exact ⟨fun _ _ _ h => Effect.noConfusion h, fun _ _ _ _ h => Effect.noConfusion h⟩
      · subst heq
        refine ⟨fun _ _ _ h => Effect.noConfusion h, fun scope' n'' v' b' h => ?_⟩
        exact (updateAttempt_value_eq h).symm

/-- Witness for C7: adding `{en-US: [a]}` leaves the stored value of the
untouched key `de-DE` unchanged in the written mapping. -/
theorem claim_C7_untouchedLanguages_witness :
    lookupLang [("de-DE", ["x"]), ("en-US", ["a"])] "de-DE" =
      lookupLang internalSettingEnv.currentSetting "de-DE" :=
  claim_C7_untouchedLanguages.1 internalSettingEnv "dictionary" [("en-US", ["a"])] "de-DE"
    ConfigurationTarget.Global "dictionary" [("de-DE", ["x"]), ("en-US", ["a"])] true
    (by decide) (by decide)
